import Mathlib

/-!
Verification of the IntCode virtual machine of this repository
(`src/aoc/src/intcode.rs`) against its natural-language specification.

The Rust source is shallowly embedded: `Vec<i64>` becomes `List Int`,
`usize` becomes `Nat`, `i64` becomes `Int` with two's-complement wrapping
(`wrap64`) applied where the source performs 64-bit arithmetic, and the
`as usize` cast becomes `i64ToUsize` (bit reinterpretation, i.e. reduction
modulo 2 ^ 64).  Rust's `/` and `%` on `i64` truncate toward zero, so they
are rendered as `Int.tdiv` and `Int.tmod`.  Code paths that `panic!` in the
source are rendered as `Except ExecError` values carrying exactly the data
that the corresponding panic message interpolates.  The `loop` inside
`Machine::run` is given explicit fuel; exhausting the fuel yields the
embedding-only sentinel `ExecError.OutOfFuel`, which corresponds to the
source looping longer than the fuel allows, not to any source panic.
-/

deriving instance DecidableEq for Except

namespace Intcode

/-- The abnormal-termination conditions of the interpreter.  The first four
constructors model the `panic!`/`assert!` calls of the source, each carrying
exactly the data its panic message interpolates (`UnknownOpcode` carries the
offending opcode value, `UnknownParameterMode` the offending mode digit,
`CannotWriteImmediate` and `AssertionFailed` carry nothing).  `OutOfFuel` is
the fuel sentinel of the embedding of the `run` loop and corresponds to no
source condition. -/
inductive ExecError where
  | UnknownOpcode (value : Int)
  | UnknownParameterMode (value : Int)
  | CannotWriteImmediate
  | AssertionFailed
  | OutOfFuel
deriving DecidableEq, Repr

/-- The Rust `as usize` cast of an `i64`: two's-complement bit
reinterpretation, i.e. the representative of the value modulo 2 ^ 64. -/
def i64ToUsize (x : Int) : Nat := (x % (2 ^ 64)).toNat

/-- Wrapping 64-bit signed arithmetic (release-mode Rust `i64` overflow
behaviour). -/
def wrap64 (x : Int) : Int := (x + 2 ^ 63) % 2 ^ 64 - 2 ^ 63

/-- The opcodes of `enum Opcode`. -/
inductive Opcode where
  | Halt
  | Input
  | Output
  | AdjustRelativeBase
  | Add
  | Mul
  | JumpIfTrue
  | JumpIfFalse
  | LessThan
  | Equals
deriving DecidableEq, Repr

/-- `Opcode::new`: select by `value % 100`; unknown codes panic. -/
def Opcode.new (value : Int) : Except ExecError Opcode :=
  let opcode := Int.tmod value 100
  match opcode with
  | 99 => .ok Opcode.Halt
  | 1 => .ok Opcode.Add
  | 2 => .ok Opcode.Mul
  | 3 => .ok Opcode.Input
  | 4 => .ok Opcode.Output
  | 5 => .ok Opcode.JumpIfTrue
  | 6 => .ok Opcode.JumpIfFalse
  | 7 => .ok Opcode.LessThan
  | 8 => .ok Opcode.Equals
  | 9 => .ok Opcode.AdjustRelativeBase
  | _ => .error (ExecError.UnknownOpcode opcode)

/-- The parameter modes of `enum ParameterMode`. -/
inductive ParameterMode where
  | Position
  | Immediate
  | Relative
deriving DecidableEq, Repr

/-- `ParameterMode::new`: digit `param_index` (from 0) of `instruction / 100`;
unknown digits panic, and `assert!(param_index <= 2)` panics on violation. -/
def ParameterMode.new (instruction : Int) (param_index : Nat) :
    Except ExecError ParameterMode :=
  if param_index ≤ 2 then
    let all_modes := Int.tdiv instruction 100
    let mode := Int.tmod (Int.tdiv all_modes ((10 : Int) ^ param_index)) 10
    match mode with
    | 0 => .ok ParameterMode.Position
    | 1 => .ok ParameterMode.Immediate
    | 2 => .ok ParameterMode.Relative
    | _ => .error (ExecError.UnknownParameterMode mode)
  else .error ExecError.AssertionFailed

/-- `struct Instruction`. -/
structure Instruction where
  value : Int
  opcode : Opcode
deriving DecidableEq, Repr

/-- `Instruction::new`. -/
def Instruction.new (value : Int) : Except ExecError Instruction :=
  (Opcode.new value).map (fun opcode => { value := value, opcode := opcode })

/-- `Instruction::parameter_mode` (asserts `index <= 2`, then delegates). -/
def Instruction.parameter_mode (instr : Instruction) (index : Nat) :
    Except ExecError ParameterMode :=
  if index ≤ 2 then ParameterMode.new instr.value index
  else .error ExecError.AssertionFailed

/-- `Instruction::is_halt`. -/
def Instruction.is_halt (instr : Instruction) : Bool :=
  match instr.opcode with
  | Opcode.Halt => true
  | _ => false

/-- `Instruction::is_input`. -/
def Instruction.is_input (instr : Instruction) : Bool :=
  match instr.opcode with
  | Opcode.Input => true
  | _ => false

/-- `enum NextAction`. -/
inductive NextAction where
  | Continue
  | Halt
  | Output (value : Int)
deriving DecidableEq, Repr

/-- `struct Machine`.  The `input` field of the source is called
`input_queue` here because the structure projection would otherwise clash
with the method `Machine::input`; it is the same `VecDeque`, with the list
head playing the role of the deque front (`push_front` conses, `pop_back`
takes the last element). -/
structure Machine where
  ip : Nat
  rbo : Int
  memory : List Int
  input_queue : List Int
deriving DecidableEq, Repr

/-- `Machine::new`: fresh machine over a program (a parsed `Vec<i64>`). -/
def Machine.new (program : List Int) : Machine :=
  { ip := 0, rbo := 0, memory := program, input_queue := [] }

/-- `Machine::input`: `self.input.push_front(value)`. -/
def Machine.input (m : Machine) (value : Int) : Machine :=
  { m with input_queue := value :: m.input_queue }

/-- `Machine::with_input`. -/
def Machine.with_input (program : List Int) (value : Int) : Machine :=
  (Machine.new program).input value

/-- `Machine::read`: in-range reads index memory, out-of-range reads give 0. -/
def Machine.read (m : Machine) (address : Nat) : Int :=
  if h : address < m.memory.length then m.memory.get ⟨address, h⟩ else 0

/-- `Machine::ensure_memory`: `memory.resize(max_address + 1, 0)` whenever
`max_address >= memory.len()`. -/
def Machine.ensure_memory (m : Machine) (max_address : Nat) : Machine :=
  if m.memory.length ≤ max_address then
    { m with
      memory := m.memory ++ List.replicate (max_address + 1 - m.memory.length) 0 }
  else m

/-- `Machine::write`: grow if needed, then store. -/
def Machine.write (m : Machine) (address : Nat) (value : Int) : Machine :=
  let m2 := m.ensure_memory address
  { m2 with memory := m2.memory.set address value }

/-- `Machine::read_instruction`. -/
def Machine.read_instruction (m : Machine) : Except ExecError Instruction :=
  Instruction.new (m.read m.ip)

/-- `Machine::is_halted`. -/
def Machine.is_halted (m : Machine) : Except ExecError Bool :=
  (m.read_instruction).map Instruction.is_halt

/-- `Machine::is_awaiting_input`. -/
def Machine.is_awaiting_input (m : Machine) : Except ExecError Bool :=
  (m.read_instruction).map Instruction.is_input

/-- `Machine::read_mut`: grow if needed, then read (the address is in range
after `ensure_memory`, so indexing coincides with `read`). -/
def Machine.read_mut (m : Machine) (address : Nat) : Int × Machine :=
  let m2 := m.ensure_memory address
  (m2.read address, m2)

/-- `Machine::exec_read` (param is zero indexed). -/
def Machine.exec_read (m : Machine) (param : Nat) :
    Except ExecError (Int × Machine) := do
  let value := m.read (m.ip + param + 1)
  let instr ← m.read_instruction
  let mode ← instr.parameter_mode param
  match mode with
  | ParameterMode.Position => pure (m.read_mut (i64ToUsize value))
  | ParameterMode.Immediate => pure (value, m)
  | ParameterMode.Relative => pure (m.read_mut (i64ToUsize (m.rbo + value)))

/-- `Machine::exec_write` (param is zero indexed); writing through an
immediate-mode operand panics. -/
def Machine.exec_write (m : Machine) (param : Nat) (value : Int) :
    Except ExecError Machine := do
  let offset := m.read (m.ip + param + 1)
  let instr ← m.read_instruction
  let mode ← instr.parameter_mode param
  match mode with
  | ParameterMode.Position => pure (m.write (i64ToUsize offset) value)
  | ParameterMode.Relative => pure (m.write (i64ToUsize (m.rbo + offset)) value)
  | ParameterMode.Immediate => .error ExecError.CannotWriteImmediate

/-- `Machine::exec_binary_op`. -/
def Machine.exec_binary_op (m : Machine) (func : Int → Int → Int) :
    Except ExecError (NextAction × Machine) := do
  let (v1, m1) ← m.exec_read 0
  let (v2, m2) ← m1.exec_read 1
  let result := func v1 v2
  let m3 ← m2.exec_write 2 result
  pure (NextAction.Continue, { m3 with ip := m3.ip + 4 })

/-- `Machine::exec_jump_if_op`. -/
def Machine.exec_jump_if_op (m : Machine) (predicate : Int → Bool) :
    Except ExecError (NextAction × Machine) := do
  let (value, m1) ← m.exec_read 0
  if predicate value then
    let (dest, m2) ← m1.exec_read 1
    pure (NextAction.Continue, { m2 with ip := i64ToUsize dest })
  else
    pure (NextAction.Continue, { m1 with ip := m1.ip + 3 })

/-- `Machine::exec_input_op`: `pop_back` on the input deque; an empty queue
pauses (the `Halt` action with the machine unchanged). -/
def Machine.exec_input_op (m : Machine) :
    Except ExecError (NextAction × Machine) :=
  match m.input_queue.getLast? with
  | none => .ok (NextAction.Halt, m)
  | some value => do
      let m2 ← ({ m with input_queue := m.input_queue.dropLast }).exec_write 0 value
      pure (NextAction.Continue, { m2 with ip := m2.ip + 2 })

/-- `Machine::exec_output_op`. -/
def Machine.exec_output_op (m : Machine) :
    Except ExecError (NextAction × Machine) := do
  let (value, m1) ← m.exec_read 0
  pure (NextAction.Output value, { m1 with ip := m1.ip + 2 })

/-- `Machine::exec_adjust_rbo`. -/
def Machine.exec_adjust_rbo (m : Machine) :
    Except ExecError (NextAction × Machine) := do
  let (value, m1) ← m.exec_read 0
  pure (NextAction.Continue, { m1 with rbo := wrap64 (m1.rbo + value), ip := m1.ip + 2 })

/-- `Machine::exec_next_instruction`: decode and dispatch one instruction. -/
def Machine.exec_next_instruction (m : Machine) :
    Except ExecError (NextAction × Machine) := do
  let instr ← m.read_instruction
  match instr.opcode with
  | Opcode.Halt => pure (NextAction.Halt, m)
  | Opcode.Add => m.exec_binary_op (fun a b => wrap64 (a + b))
  | Opcode.Mul => m.exec_binary_op (fun a b => wrap64 (a * b))
  | Opcode.Input => m.exec_input_op
  | Opcode.Output => m.exec_output_op
  | Opcode.JumpIfFalse => m.exec_jump_if_op (fun v => v == 0)
  | Opcode.JumpIfTrue => m.exec_jump_if_op (fun v => v != 0)
  | Opcode.LessThan => m.exec_binary_op (fun a b => if a < b then 1 else 0)
  | Opcode.Equals => m.exec_binary_op (fun a b => if a == b then 1 else 0)
  | Opcode.AdjustRelativeBase => m.exec_adjust_rbo

/-- `Machine::run`, with explicit fuel for the source's unbounded `loop`:
step until a `Halt` or `Output` action.  `.ok (none, m)` is the source's
`None` return (halted or input-starved), `.ok (some v, m)` is `Some(v)`. -/
def Machine.run (m : Machine) (fuel : Nat) :
    Except ExecError (Option Int × Machine) :=
  match fuel with
  | 0 => .error ExecError.OutOfFuel
  | fuel + 1 =>
    match m.exec_next_instruction with
    | .error e => .error e
    | .ok (NextAction.Continue, m1) => m1.run fuel
    | .ok (NextAction.Halt, m1) => .ok (none, m1)
    | .ok (NextAction.Output value, m1) => .ok (some value, m1)

/-- `Machine::run_with_input`. -/
def Machine.run_with_input (m : Machine) (value : Int) (fuel : Nat) :
    Except ExecError (Option Int × Machine) :=
  (m.input value).run fuel

/-- `Machine::run_as_iter(...).collect()`: repeatedly `run`, collecting each
output, until a run returns no output; `rounds` bounds the number of `run`
calls. -/
def collectOutputs (m : Machine) (fuel rounds : Nat) :
    Except ExecError (List Int × Machine) :=
  match rounds with
  | 0 => .error ExecError.OutOfFuel
  | rounds + 1 =>
    match m.run fuel with
    | .error e => .error e
    | .ok (none, m1) => .ok ([], m1)
    | .ok (some v, m1) =>
      (collectOutputs m1 fuel rounds).map (fun p => (v :: p.1, p.2))

/-- Buffer a whole input sequence up front by repeated `Machine::input`
calls (oldest value pushed first, hence consumed first). -/
def feedAll (m : Machine) (inputs : List Int) : Machine :=
  inputs.foldl Machine.input m

/-- Drive a machine by supplying inputs one at a time: repeatedly `run`,
collecting outputs; when a run pauses without output while the machine is
awaiting input and inputs remain, supply exactly one input value and
continue (so the next step is a `run_with_input` call); stop at a pause
that is not resumed. -/
def driveSplit (m : Machine) (inputs : List Int) (fuel rounds : Nat) :
    Except ExecError (List Int × Machine) :=
  match rounds with
  | 0 => .error ExecError.OutOfFuel
  | rounds + 1 =>
    match m.run fuel with
    | .error e => .error e
    | .ok (some v, m1) =>
      (driveSplit m1 inputs fuel rounds).map (fun p => (v :: p.1, p.2))
    | .ok (none, m1) =>
      match inputs with
      | [] => .ok ([], m1)
      | v :: rest =>
        if m1.is_awaiting_input = Except.ok true then
          driveSplit (m1.input v) rest fuel rounds
        else .ok ([], m1)

/-! ### Simp lemmas for the `Except` monad operations used by the embedding -/

@[simp]
theorem ok_bind {ε α β : Type} (a : α) (f : α → Except ε β) :
    (Except.ok a >>= f) = f a := rfl

@[simp]
theorem error_bind {ε α β : Type} (e : ε) (f : α → Except ε β) :
    ((Except.error e : Except ε α) >>= f) = Except.error e := rfl

@[simp]
theorem pure_eq_ok {ε α : Type} (a : α) : (pure a : Except ε α) = Except.ok a := rfl

@[simp]
theorem map_ok {ε α β : Type} (f : α → β) (a : α) :
    Except.map f (Except.ok a : Except ε α) = Except.ok (f a) := rfl

@[simp]
theorem map_error {ε α β : Type} (f : α → β) (e : ε) :
    Except.map f (Except.error e : Except ε α) = Except.error e := rfl

/-! ### State-component preservation and memory-growth lemmas -/

theorem ensure_memory_ip (m : Machine) (a : Nat) : (m.ensure_memory a).ip = m.ip := by
  unfold Machine.ensure_memory; split <;> rfl

theorem ensure_memory_rbo (m : Machine) (a : Nat) : (m.ensure_memory a).rbo = m.rbo := by
  unfold Machine.ensure_memory; split <;> rfl

theorem ensure_memory_queue (m : Machine) (a : Nat) :
    (m.ensure_memory a).input_queue = m.input_queue := by
  unfold Machine.ensure_memory; split <;> rfl

theorem ensure_memory_len_le (m : Machine) (a : Nat) :
    m.memory.length ≤ (m.ensure_memory a).memory.length := by
  unfold Machine.ensure_memory; split <;> simp

theorem ensure_memory_grow (m : Machine) (a : Nat) (h : m.memory.length ≤ a) :
    (m.ensure_memory a).memory =
      m.memory ++ List.replicate (a + 1 - m.memory.length) 0 := by
  unfold Machine.ensure_memory
  rw [if_pos h]

theorem ensure_memory_grow_len (m : Machine) (a : Nat) (h : m.memory.length ≤ a) :
    (m.ensure_memory a).memory.length = a + 1 := by
  rw [ensure_memory_grow m a h]
  simp
  omega

theorem write_ip (m : Machine) (a : Nat) (v : Int) : (m.write a v).ip = m.ip := by
  unfold Machine.write
  simpa using ensure_memory_ip m a

theorem write_rbo (m : Machine) (a : Nat) (v : Int) : (m.write a v).rbo = m.rbo := by
  unfold Machine.write
  simpa using ensure_memory_rbo m a

theorem write_queue (m : Machine) (a : Nat) (v : Int) :
    (m.write a v).input_queue = m.input_queue := by
  unfold Machine.write
  simpa using ensure_memory_queue m a

theorem write_len_le (m : Machine) (a : Nat) (v : Int) :
    m.memory.length ≤ (m.write a v).memory.length := by
  unfold Machine.write
  simpa using ensure_memory_len_le m a

theorem read_mut_ip (m : Machine) (a : Nat) : (m.read_mut a).2.ip = m.ip :=
  ensure_memory_ip m a

theorem read_mut_rbo (m : Machine) (a : Nat) : (m.read_mut a).2.rbo = m.rbo :=
  ensure_memory_rbo m a

theorem read_mut_queue (m : Machine) (a : Nat) :
    (m.read_mut a).2.input_queue = m.input_queue :=
  ensure_memory_queue m a

theorem read_mut_len_le (m : Machine) (a : Nat) :
    m.memory.length ≤ (m.read_mut a).2.memory.length :=
  ensure_memory_len_le m a

/-! ### Inversion lemmas for operand resolution -/

theorem exec_read_spec {m : Machine} {p : Nat} {v : Int} {m' : Machine}
    (h : m.exec_read p = .ok (v, m')) :
    m'.ip = m.ip ∧ m'.rbo = m.rbo ∧ m'.input_queue = m.input_queue ∧
      m.memory.length ≤ m'.memory.length := by
  unfold Machine.exec_read at h
  cases hri : m.read_instruction with
  | error e => rw [hri] at h; simp at h
  | ok instr =>
    rw [hri] at h
    simp only [ok_bind] at h
    cases hpm : instr.parameter_mode p with
    | error e => rw [hpm] at h; simp at h
    | ok mode =>
      rw [hpm] at h
      simp only [ok_bind] at h
      cases mode with
      | Position =>
        simp only [Machine.read_mut, pure_eq_ok, Except.ok.injEq, Prod.mk.injEq] at h
        rw [← h.2]
        exact ⟨ensure_memory_ip .., ensure_memory_rbo .., ensure_memory_queue ..,
          ensure_memory_len_le ..⟩
      | Immediate =>
        simp only [pure_eq_ok, Except.ok.injEq, Prod.mk.injEq] at h
        rw [← h.2]
        exact ⟨rfl, rfl, rfl, le_refl _⟩
      | Relative =>
        simp only [Machine.read_mut, pure_eq_ok, Except.ok.injEq, Prod.mk.injEq] at h
        rw [← h.2]
        exact ⟨ensure_memory_ip .., ensure_memory_rbo .., ensure_memory_queue ..,
          ensure_memory_len_le ..⟩

theorem exec_write_spec {m : Machine} {p : Nat} {w : Int} {m' : Machine}
    (h : m.exec_write p w = .ok m') :
    m'.ip = m.ip ∧ m'.rbo = m.rbo ∧ m'.input_queue = m.input_queue ∧
      m.memory.length ≤ m'.memory.length := by
  unfold Machine.exec_write at h
  cases hri : m.read_instruction with
  | error e => rw [hri] at h; simp at h
  | ok instr =>
    rw [hri] at h
    simp only [ok_bind] at h
    cases hpm : instr.parameter_mode p with
    | error e => rw [hpm] at h; simp at h
    | ok mode =>
      rw [hpm] at h
      simp only [ok_bind] at h
      cases mode with
      | Position =>
        simp only [pure_eq_ok, Except.ok.injEq] at h
        rw [← h]
        exact ⟨write_ip .., write_rbo .., write_queue .., write_len_le ..⟩
      | Immediate => simp at h
      | Relative =>
        simp only [pure_eq_ok, Except.ok.injEq] at h
        rw [← h]
        exact ⟨write_ip .., write_rbo .., write_queue .., write_len_le ..⟩

/-! ### Inversion lemmas for the instruction handlers -/

theorem exec_binary_op_spec {m : Machine} {f : Int → Int → Int} {a : NextAction}
    {m' : Machine} (h : m.exec_binary_op f = .ok (a, m')) :
    a = NextAction.Continue ∧ m'.input_queue = m.input_queue ∧
      m.memory.length ≤ m'.memory.length := by
  unfold Machine.exec_binary_op at h
  cases h1 : m.exec_read 0 with
  | error e => rw [h1] at h; simp at h
  | ok p1 =>
    rw [h1] at h
    obtain ⟨v1, m1⟩ := p1
    simp only [ok_bind] at h
    cases h2 : m1.exec_read 1 with
    | error e => rw [h2] at h; simp at h
    | ok p2 =>
      rw [h2] at h
      obtain ⟨v2, m2⟩ := p2
      simp only [ok_bind] at h
      cases h3 : m2.exec_write 2 (f v1 v2) with
      | error e => rw [h3] at h; simp at h
      | ok m3 =>
        rw [h3] at h
        have hh : NextAction.Continue = a ∧ ({ m3 with ip := m3.ip + 4 } : Machine) = m' := by
          simpa using h
        obtain ⟨ha, hm⟩ := hh
        obtain ⟨-, -, q1, l1⟩ := exec_read_spec h1
        obtain ⟨-, -, q2, l2⟩ := exec_read_spec h2
        obtain ⟨-, -, q3, l3⟩ := exec_write_spec h3
        refine ⟨ha.symm, ?_, ?_⟩
        · rw [← hm]; simp [q3, q2, q1]
        · rw [← hm]; simp; omega

theorem exec_jump_if_op_spec {m : Machine} {f : Int → Bool} {a : NextAction}
    {m' : Machine} (h : m.exec_jump_if_op f = .ok (a, m')) :
    a = NextAction.Continue ∧ m'.input_queue = m.input_queue ∧
      m.memory.length ≤ m'.memory.length := by
  unfold Machine.exec_jump_if_op at h
  cases h1 : m.exec_read 0 with
  | error e => rw [h1] at h; simp at h
  | ok p1 =>
    rw [h1] at h
    obtain ⟨v1, m1⟩ := p1
    simp only [ok_bind] at h
    obtain ⟨-, -, q1, l1⟩ := exec_read_spec h1
    by_cases hp : f v1
    · rw [if_pos hp] at h
      cases h2 : m1.exec_read 1 with
      | error e => rw [h2] at h; simp at h
      | ok p2 =>
        rw [h2] at h
        obtain ⟨v2, m2⟩ := p2
        simp only [ok_bind, pure_eq_ok, Except.ok.injEq, Prod.mk.injEq] at h
        obtain ⟨ha, hm⟩ := h
        obtain ⟨-, -, q2, l2⟩ := exec_read_spec h2
        refine ⟨ha.symm, ?_, ?_⟩
        · rw [← hm]; simp [q2, q1]
        · rw [← hm]; simp; omega
    · rw [if_neg hp] at h
      simp only [pure_eq_ok, Except.ok.injEq, Prod.mk.injEq] at h
      obtain ⟨ha, hm⟩ := h
      refine ⟨ha.symm, ?_, ?_⟩
      · rw [← hm]; simp [q1]
      · rw [← hm]; simp; omega

theorem exec_output_op_spec {m : Machine} {a : NextAction} {m' : Machine}
    (h : m.exec_output_op = .ok (a, m')) :
    ∃ v m1, m.exec_read 0 = .ok (v, m1) ∧ a = NextAction.Output v ∧
      m' = { m1 with ip := m1.ip + 2 } := by
  unfold Machine.exec_output_op at h
  cases h1 : m.exec_read 0 with
  | error e => rw [h1] at h; simp at h
  | ok p1 =>
    rw [h1] at h
    obtain ⟨v1, m1⟩ := p1
    simp only [ok_bind, pure_eq_ok, Except.ok.injEq, Prod.mk.injEq] at h
    exact ⟨v1, m1, rfl, h.1.symm, h.2.symm⟩

theorem exec_adjust_rbo_spec {m : Machine} {a : NextAction} {m' : Machine}
    (h : m.exec_adjust_rbo = .ok (a, m')) :
    a = NextAction.Continue ∧ m'.input_queue = m.input_queue ∧
      m.memory.length ≤ m'.memory.length := by
  unfold Machine.exec_adjust_rbo at h
  cases h1 : m.exec_read 0 with
  | error e => rw [h1] at h; simp at h
  | ok p1 =>
    rw [h1] at h
    obtain ⟨v1, m1⟩ := p1
    simp only [ok_bind, pure_eq_ok, Except.ok.injEq, Prod.mk.injEq] at h
    obtain ⟨ha, hm⟩ := h
    obtain ⟨-, -, q1, l1⟩ := exec_read_spec h1
    refine ⟨ha.symm, ?_, ?_⟩
    · rw [← hm]; simp [q1]
    · rw [← hm]; simp; omega

theorem exec_input_op_spec {m : Machine} {a : NextAction} {m' : Machine}
    (h : m.exec_input_op = .ok (a, m')) :
    (m.input_queue = [] ∧ a = NextAction.Halt ∧ m' = m) ∨
    (∃ v m2, m.input_queue.getLast? = some v ∧
      ({ m with input_queue := m.input_queue.dropLast }).exec_write 0 v = .ok m2 ∧
      a = NextAction.Continue ∧ m' = { m2 with ip := m2.ip + 2 }) := by
  unfold Machine.exec_input_op at h
  split at h
  next hq =>
    have hh : NextAction.Halt = a ∧ m = m' := by simpa using h
    exact Or.inl ⟨List.getLast?_eq_none_iff.mp hq, hh.1.symm, hh.2.symm⟩
  next v hq =>
    cases h2 : ({ m with input_queue := m.input_queue.dropLast }).exec_write 0 v with
    | error e => rw [h2] at h; simp at h
    | ok m2 =>
      rw [h2] at h
      have hh : NextAction.Continue = a ∧ ({ m2 with ip := m2.ip + 2 } : Machine) = m' := by
        simpa using h
      exact Or.inr ⟨v, m2, hq, h2, hh.1.symm, hh.2.symm⟩

/-! ### Inversion lemmas for dispatch and for `run` -/

theorem exec_next_len_le {m : Machine} {a : NextAction} {m' : Machine}
    (h : m.exec_next_instruction = .ok (a, m')) :
    m.memory.length ≤ m'.memory.length := by
  unfold Machine.exec_next_instruction at h
  cases hri : m.read_instruction with
  | error e => rw [hri] at h; simp at h
  | ok instr =>
    rw [hri] at h
    simp only [ok_bind] at h
    cases hop : instr.opcode <;> rw [hop] at h
    case Halt =>
      have hh : NextAction.Halt = a ∧ m = m' := by simpa using h
      rw [← hh.2]
    case Add => exact (exec_binary_op_spec h).2.2
    case Mul => exact (exec_binary_op_spec h).2.2
    case LessThan => exact (exec_binary_op_spec h).2.2
    case Equals => exact (exec_binary_op_spec h).2.2
    case JumpIfTrue => exact (exec_jump_if_op_spec h).2.2
    case JumpIfFalse => exact (exec_jump_if_op_spec h).2.2
    case AdjustRelativeBase => exact (exec_adjust_rbo_spec h).2.2
    case Output =>
      obtain ⟨v, m1, hread, -, hm⟩ := exec_output_op_spec h
      obtain ⟨-, -, -, l1⟩ := exec_read_spec hread
      rw [hm]
      simpa using l1
    case Input =>
      rcases exec_input_op_spec h with ⟨-, -, hm⟩ | ⟨v, m2, -, hw, -, hm⟩
      · rw [hm]
      · obtain ⟨-, -, -, l2⟩ := exec_write_spec hw
        rw [hm]
        simpa using l2

theorem exec_next_halt_inv {m : Machine} {m' : Machine}
    (h : m.exec_next_instruction = .ok (NextAction.Halt, m')) :
    m' = m ∧ ∃ i, m.read_instruction = .ok i ∧
      (i.opcode = Opcode.Halt ∨ (i.opcode = Opcode.Input ∧ m.input_queue = [])) := by
  unfold Machine.exec_next_instruction at h
  cases hri : m.read_instruction with
  | error e => rw [hri] at h; simp at h
  | ok instr =>
    rw [hri] at h
    simp only [ok_bind] at h
    cases hop : instr.opcode <;> rw [hop] at h
    case Halt =>
      have hh : NextAction.Halt = NextAction.Halt ∧ m = m' := by simpa using h
      exact ⟨hh.2.symm, instr, rfl, Or.inl hop⟩
    case Add => exact absurd (exec_binary_op_spec h).1 (by simp)
    case Mul => exact absurd (exec_binary_op_spec h).1 (by simp)
    case LessThan => exact absurd (exec_binary_op_spec h).1 (by simp)
    case Equals => exact absurd (exec_binary_op_spec h).1 (by simp)
    case JumpIfTrue => exact absurd (exec_jump_if_op_spec h).1 (by simp)
    case JumpIfFalse => exact absurd (exec_jump_if_op_spec h).1 (by simp)
    case AdjustRelativeBase => exact absurd (exec_adjust_rbo_spec h).1 (by simp)
    case Output =>
      obtain ⟨v, m1, -, ha, -⟩ := exec_output_op_spec h
      simp at ha
    case Input =>
      rcases exec_input_op_spec h with ⟨hq, -, hm⟩ | ⟨v, m2, -, -, ha, -⟩
      · exact ⟨hm, instr, rfl, Or.inr ⟨hop, hq⟩⟩
      · simp at ha

theorem run_succ (m : Machine) (f : Nat) :
    m.run (f + 1) =
      match m.exec_next_instruction with
      | .error e => .error e
      | .ok (NextAction.Continue, m1) => m1.run f
      | .ok (NextAction.Halt, m1) => .ok (none, m1)
      | .ok (NextAction.Output v, m1) => .ok (some v, m1) := rfl

theorem run_len_le {m : Machine} {f : Nat} {r : Option Int} {m' : Machine}
    (h : m.run f = .ok (r, m')) : m.memory.length ≤ m'.memory.length := by
  induction f generalizing m with
  | zero => simp [Machine.run] at h
  | succ f ih =>
    rw [run_succ] at h
    cases he : m.exec_next_instruction with
    | error e => rw [he] at h; simp at h
    | ok p =>
      rw [he] at h
      obtain ⟨a, m1⟩ := p
      have hlen := exec_next_len_le he
      cases a with
      | Continue => exact le_trans hlen (ih h)
      | Halt =>
        have hh : (none : Option Int) = r ∧ m1 = m' := by simpa using h
        rw [← hh.2]; exact hlen
      | Output v =>
        have hh : (some v : Option Int) = r ∧ m1 = m' := by simpa using h
        rw [← hh.2]; exact hlen

theorem run_mono {m : Machine} {f f' : Nat} {x : Option Int × Machine}
    (h : m.run f = .ok x) (hle : f ≤ f') : m.run f' = .ok x := by
  induction f generalizing m f' with
  | zero => simp [Machine.run] at h
  | succ f ih =>
    obtain ⟨f', rfl⟩ : ∃ g, f' = g + 1 := ⟨f' - 1, by omega⟩
    rw [run_succ] at h ⊢
    cases he : m.exec_next_instruction with
    | error e => rw [he] at h; simp at h
    | ok p =>
      rw [he] at h
      obtain ⟨a, m1⟩ := p
      cases a with
      | Continue => exact ih h (by omega)
      | Halt => exact h
      | Output v => exact h

theorem run_det {m : Machine} {f f' : Nat} {x y : Option Int × Machine}
    (h : m.run f = .ok x) (h' : m.run f' = .ok y) : x = y := by
  rcases le_total f f' with hle | hle
  · rw [run_mono h hle] at h'
    exact (Except.ok.injEq _ _).mp h'
  · rw [run_mono h' hle] at h
    exact ((Except.ok.injEq _ _).mp h).symm

theorem run_none_cases {m : Machine} {f : Nat} {m' : Machine}
    (h : m.run f = .ok (none, m')) :
    ∃ i, m'.read_instruction = .ok i ∧
      (i.opcode = Opcode.Halt ∨ (i.opcode = Opcode.Input ∧ m'.input_queue = [])) := by
  induction f generalizing m with
  | zero => simp [Machine.run] at h
  | succ f ih =>
    rw [run_succ] at h
    cases he : m.exec_next_instruction with
    | error e => rw [he] at h; simp at h
    | ok p =>
      rw [he] at h
      obtain ⟨a, m1⟩ := p
      cases a with
      | Continue => exact ih h
      | Halt =>
        have hh : (none : Option Int) = none ∧ m1 = m' := by simpa using h
        obtain ⟨hm, hi⟩ := exec_next_halt_inv he
        rw [← hh.2, hm]
        exact hi
      | Output v => simp at h

/-! ### Claim C1: pausing on input starvation and resuming -/

/-- C1: for every machine whose current instruction is Input (opcode 3) and
whose input queue is empty, `run` returns the no-output result without moving
the instruction pointer (the machine is returned entirely unchanged),
`is_awaiting_input` then returns true, and after supplying an input value the
next `run` call resumes by executing exactly that Input instruction first. -/
theorem claim_C1 (m : Machine) (i : Instruction) (f : Nat)
    (hinstr : m.read_instruction = .ok i) (hop : i.opcode = Opcode.Input)
    (hq : m.input_queue = []) :
    m.run (f + 1) = .ok (none, m) ∧
    m.is_awaiting_input = .ok true ∧
    ∀ v f2, (m.input v).run (f2 + 1) =
      match (m.input v).exec_input_op with
      | .error e => .error e
      | .ok (NextAction.Continue, m2) => m2.run f2
      | .ok (NextAction.Halt, m2) => .ok (none, m2)
      | .ok (NextAction.Output o, m2) => .ok (some o, m2) := by
  have hnext : m.exec_next_instruction = m.exec_input_op := by
    unfold Machine.exec_next_instruction
    rw [hinstr]
    simp only [ok_bind]
    rw [hop]
  have hio : m.exec_input_op = .ok (NextAction.Halt, m) := by
    unfold Machine.exec_input_op
    rw [hq]
    rfl
  refine ⟨?_, ?_, ?_⟩
  · rw [run_succ, hnext, hio]
  · unfold Machine.is_awaiting_input
    rw [hinstr]
    simp [Instruction.is_input, hop]
  · intro v f2
    have hri2 : (m.input v).read_instruction = m.read_instruction := rfl
    have hnext2 : (m.input v).exec_next_instruction = (m.input v).exec_input_op := by
      unfold Machine.exec_next_instruction
      rw [hri2, hinstr]
      simp only [ok_bind]
      rw [hop]
    rw [run_succ, hnext2]

/-- Witness for C1 at the machine for program `3,0,99`. -/
theorem claim_C1_witness :
    (Machine.new [3, 0, 99]).run 1 = .ok (none, Machine.new [3, 0, 99]) ∧
      (Machine.new [3, 0, 99]).is_awaiting_input = .ok true ∧
      ((Machine.new [3, 0, 99]).input 7).run 3 =
        match ((Machine.new [3, 0, 99]).input 7).exec_input_op with
        | .error e => .error e
        | .ok (NextAction.Continue, m2) => m2.run 2
        | .ok (NextAction.Halt, m2) => .ok (none, m2)
        | .ok (NextAction.Output o, m2) => .ok (some o, m2) := by
  have h := claim_C1 (Machine.new [3, 0, 99]) ⟨3, Opcode.Input⟩ 0 (by decide) rfl rfl
  exact ⟨h.1, h.2.1, h.2.2 7 2⟩

/-! ### Claim C2: pausing on output -/

/-- C2: when `run` executes an Output instruction it returns the resolved
operand as the output value, with the instruction pointer already advanced by
2 past the Output instruction (operand resolution itself leaves the pointer,
relative base and input queue unchanged), so the returned machine state is
exactly the state in which the next `run` call resumes with the following
instruction; no instruction after the Output has been executed. -/
theorem claim_C2 (m : Machine) (i : Instruction) (v : Int) (m1 : Machine) (f : Nat)
    (hinstr : m.read_instruction = .ok i) (hop : i.opcode = Opcode.Output)
    (hread : m.exec_read 0 = .ok (v, m1)) :
    m.run (f + 1) = .ok (some v, { m1 with ip := m1.ip + 2 }) ∧
    m1.ip = m.ip ∧ m1.rbo = m.rbo ∧ m1.input_queue = m.input_queue := by
  have hnext : m.exec_next_instruction =
      .ok (NextAction.Output v, { m1 with ip := m1.ip + 2 }) := by
    unfold Machine.exec_next_instruction
    rw [hinstr]
    simp only [ok_bind]
    rw [hop]
    show m.exec_output_op = _
    unfold Machine.exec_output_op
    rw [hread]
    simp only [ok_bind, pure_eq_ok]
  obtain ⟨hip, hrbo, hqq, -⟩ := exec_read_spec hread
  refine ⟨?_, hip, hrbo, hqq⟩
  rw [run_succ, hnext]

/-- Witness for C2 at the machine for program `104,42,99`. -/
theorem claim_C2_witness :
    (Machine.new [104, 42, 99]).run 1 = .ok (some 42, ⟨2, 0, [104, 42, 99], []⟩) :=
  (claim_C2 (Machine.new [104, 42, 99]) ⟨104, Opcode.Output⟩ 42
    (Machine.new [104, 42, 99]) 0 (by decide) rfl (by decide)).1

/-! ### Claim C3: idempotence of halt -/

/-- C3: for every machine whose current instruction is Halt (opcode 99),
`run` returns the no-output result and the machine itself, entirely unchanged
(memory, instruction pointer, relative base and input queue), for every
positive fuel; hence every further `run` call returns the same result and
`is_halted` stays true. -/
theorem claim_C3 (m : Machine) (i : Instruction) (f : Nat)
    (hinstr : m.read_instruction = .ok i) (hop : i.opcode = Opcode.Halt) :
    m.run (f + 1) = .ok (none, m) ∧ m.is_halted = .ok true := by
  have hnext : m.exec_next_instruction = .ok (NextAction.Halt, m) := by
    unfold Machine.exec_next_instruction
    rw [hinstr]
    simp only [ok_bind]
    rw [hop]
    rfl
  constructor
  · rw [run_succ, hnext]
  · unfold Machine.is_halted
    rw [hinstr]
    simp [Instruction.is_halt, hop]

/-- Witness for C3 at the machine for program `99`. -/
theorem claim_C3_witness :
    (Machine.new [99]).run 1 = .ok (none, Machine.new [99]) ∧
      (Machine.new [99]).is_halted = .ok true :=
  claim_C3 (Machine.new [99]) ⟨99, Opcode.Halt⟩ 0 (by decide) rfl

/-! ### Claim C5: reads on a fresh machine -/

/-- C5: for every program P and address a, reading address a on a freshly
constructed machine returns P[a] when a is in range and 0 when a is at or
beyond the program length; an out-of-range read is not an error (the read
operation is total). -/
theorem claim_C5 (P : List Int) (a : Nat) :
    (∀ h : a < P.length, (Machine.new P).read a = P.get ⟨a, h⟩) ∧
    (P.length ≤ a → (Machine.new P).read a = 0) := by
  constructor
  · intro h
    unfold Machine.read
    exact dif_pos h
  · intro h
    unfold Machine.read
    exact dif_neg (by simp [Machine.new]; omega)

/-- Witness for C5 at P = [5, 6], with a = 1 in range and a = 3 out of range. -/
theorem claim_C5_witness :
    (Machine.new [5, 6]).read 1 = [5, 6].get ⟨1, by decide⟩ ∧
      (Machine.new [5, 6]).read 3 = 0 :=
  ⟨(claim_C5 [5, 6] 1).1 (by decide), (claim_C5 [5, 6] 3).2 (by decide)⟩

/-! ### Claim C7: the instruction-word encoding -/

/-- The integer code that selects each opcode. -/
def opcodeCode : Opcode → Int
  | Opcode.Halt => 99
  | Opcode.Add => 1
  | Opcode.Mul => 2
  | Opcode.Input => 3
  | Opcode.Output => 4
  | Opcode.JumpIfTrue => 5
  | Opcode.JumpIfFalse => 6
  | Opcode.LessThan => 7
  | Opcode.Equals => 8
  | Opcode.AdjustRelativeBase => 9

/-- The digit that selects each parameter mode. -/
def modeCode : ParameterMode → Int
  | ParameterMode.Position => 0
  | ParameterMode.Immediate => 1
  | ParameterMode.Relative => 2

/-- C7: the opcode of an instruction word w is selected by its last two
decimal digits, w % 100, and the parameter mode of operand idx (zero-indexed)
by decimal digit idx of the remaining leading digits,
((w / 100) / 10 ^ idx) % 10, a missing digit giving mode 0 (Position); `/`
and `%` here are the source language's truncated division and remainder
(`Int.tdiv`, `Int.tmod`).  Any opcode value outside 1..9 and 99, and any mode
digit outside 0..2, is a fatal decode error. -/
theorem claim_C7 (w : Int) (idx : Nat) (hidx : idx ≤ 2) :
    (∀ op, Opcode.new w = .ok op → opcodeCode op = Int.tmod w 100) ∧
    ((∃ e, Opcode.new w = .error e) ↔
      ¬(Int.tmod w 100 = 99 ∨ (1 ≤ Int.tmod w 100 ∧ Int.tmod w 100 ≤ 9))) ∧
    (∀ pm, ParameterMode.new w idx = .ok pm →
      modeCode pm = Int.tmod (Int.tdiv (Int.tdiv w 100) ((10 : Int) ^ idx)) 10) ∧
    ((∃ e, ParameterMode.new w idx = .error e) ↔
      ¬(Int.tmod (Int.tdiv (Int.tdiv w 100) ((10 : Int) ^ idx)) 10 = 0 ∨
        Int.tmod (Int.tdiv (Int.tdiv w 100) ((10 : Int) ^ idx)) 10 = 1 ∨
        Int.tmod (Int.tdiv (Int.tdiv w 100) ((10 : Int) ^ idx)) 10 = 2)) := by
  refine ⟨?_, ⟨?_, ?_⟩, ?_, ⟨?_, ?_⟩⟩
  · intro op hop
    unfold Opcode.new at hop
    dsimp only at hop
    split at hop <;> (cases hop <;> simp_all [opcodeCode])
  · rintro ⟨e, he⟩
    unfold Opcode.new at he
    dsimp only at he
    split at he <;> simp_all
    omega
  · intro hnot
    unfold Opcode.new
    dsimp only
    split <;> first
      | exact ⟨_, rfl⟩
      | (exfalso; apply hnot; omega)
  · intro pm hpm
    unfold ParameterMode.new at hpm
    rw [if_pos hidx] at hpm
    dsimp only at hpm
    split at hpm <;> (cases hpm <;> simp_all [modeCode])
  · rintro ⟨e, he⟩
    unfold ParameterMode.new at he
    rw [if_pos hidx] at he
    dsimp only at he
    split at he <;> simp_all
  · intro hnot
    unfold ParameterMode.new
    rw [if_pos hidx]
    dsimp only
    split <;> first
      | exact ⟨_, rfl⟩
      | (exfalso; apply hnot; omega)

/-- Witness for C7 at w = 1002 (Mul with modes 0, 1, 0) and idx = 1. -/
theorem claim_C7_witness :
    (opcodeCode Opcode.Mul = Int.tmod 1002 100) ∧
      (modeCode ParameterMode.Immediate =
        Int.tmod (Int.tdiv (Int.tdiv 1002 100) ((10 : Int) ^ 1)) 10) := by
  have h := claim_C7 1002 1 (by decide)
  exact ⟨h.1 Opcode.Mul (by decide), h.2.2.1 ParameterMode.Immediate (by decide)⟩

/-! ### Claim C8: the quine program -/

/-- The self-replicating program of the repository's `test_machine_run`. -/
def quineProgram : List Int :=
  [109, 1, 204, -1, 1001, 100, 1, 100, 1008, 100, 16, 101, 1006, 101, 0, 99]

/-! ### Claim C6: memory only grows, and writes beyond the end zero-fill -/

theorem read_eq (m : Machine) (a : Nat) : m.read a = (m.memory[a]?).getD 0 := by
  unfold Machine.read
  split
  next h => rw [List.getElem?_eq_getElem h]; rfl
  next h => rw [List.getElem?_eq_none (by omega)]; rfl

/-- C6: memory length never shrinks under any operation on a Machine
(direct writes, input buffering, single-instruction execution, and whole
run calls); and a write to an address a at or beyond the current length
grows memory to length a + 1, stores the value at address a, and leaves
every address strictly between the old length and a reading as 0. -/
theorem claim_C6 (m : Machine) (a : Nat) (v : Int) (f : Nat)
    (act : NextAction) (mE : Machine) (r : Option Int) (mR : Machine) :
    (m.memory.length ≤ (m.write a v).memory.length) ∧
    ((m.input v).memory.length = m.memory.length) ∧
    (m.exec_next_instruction = .ok (act, mE) → m.memory.length ≤ mE.memory.length) ∧
    (m.run f = .ok (r, mR) → m.memory.length ≤ mR.memory.length) ∧
    (m.memory.length ≤ a →
      (m.write a v).memory.length = a + 1 ∧
      (m.write a v).read a = v ∧
      (∀ j, m.memory.length ≤ j → j < a → (m.write a v).read j = 0)) := by
  refine ⟨write_len_le m a v, rfl, exec_next_len_le, run_len_le, fun hga => ?_⟩
  have hmem : (m.write a v).memory =
      (m.memory ++ List.replicate (a + 1 - m.memory.length) 0).set a v := by
    unfold Machine.write
    dsimp only
    rw [ensure_memory_grow m a hga]
  have hlen : (m.write a v).memory.length = a + 1 := by
    rw [hmem, List.length_set]
    simp
    omega
  refine ⟨hlen, ?_, ?_⟩
  · rw [read_eq, hmem, List.getElem?_set_self (by simp; omega)]
    rfl
  · intro j hj1 hj2
    rw [read_eq, hmem, List.getElem?_set_ne (by omega),
      List.getElem?_append_right hj1, List.getElem?_replicate]
    rw [if_pos (by omega)]
    rfl

/-- Witness for C6 at the machine for program `99` with a write to address 3. -/
theorem claim_C6_witness :
    ((Machine.new [99]).memory.length ≤ ((Machine.new [99]).write 3 7).memory.length) ∧
      (((Machine.new [99]).write 3 7).memory.length = 3 + 1 ∧
        ((Machine.new [99]).write 3 7).read 3 = 7 ∧
        ((Machine.new [99]).write 3 7).read 1 = 0) := by
  have h := claim_C6 (Machine.new [99]) 3 7 1 NextAction.Halt (Machine.new [99])
    none (Machine.new [99])
  have hg := h.2.2.2.2 (by decide)
  exact ⟨h.1, hg.1, hg.2.1, hg.2.2 1 (by decide) (by decide)⟩

/-! ### Claim C10: reads in Position/Relative mode grow memory -/

theorem read_mut_grow {m : Machine} {a : Nat} (h : m.memory.length ≤ a) :
    (m.read_mut a).2.memory.length = a + 1 ∧ (m.read_mut a).1 = 0 ∧
      ∀ j, m.memory.length ≤ j → j < a + 1 → (m.read_mut a).2.read j = 0 := by
  have hmem := ensure_memory_grow m a h
  have hlen := ensure_memory_grow_len m a h
  have hzero : ∀ j, m.memory.length ≤ j → j < a + 1 → (m.ensure_memory a).read j = 0 := by
    intro j hj1 hj2
    rw [read_eq, hmem, List.getElem?_append_right hj1, List.getElem?_replicate]
    rw [if_pos (by omega)]
    rfl
  exact ⟨hlen, hzero a h (by omega), hzero⟩

/-- C10: executing an instruction that merely reads an operand in Position or
Relative mode whose effective address is at or beyond the current memory
length grows memory (zero-filled) to make that address valid, the value read
being 0; hence the length of the memory snapshot can increase as a side
effect of a purely reading instruction, as witnessed concretely by the
Output-only program `4,10,99`, whose run grows memory from 3 to 11 cells. -/
theorem claim_C10 (m : Machine) (p : Nat) (i : Instruction) (v : Int) (m1 : Machine) :
    (m.read_instruction = .ok i → i.parameter_mode p = .ok ParameterMode.Position →
      m.exec_read p = .ok (v, m1) →
      m.memory.length ≤ i64ToUsize (m.read (m.ip + p + 1)) →
      m1.memory.length = i64ToUsize (m.read (m.ip + p + 1)) + 1 ∧ v = 0 ∧
        ∀ j, m.memory.length ≤ j → j < m1.memory.length → m1.read j = 0) ∧
    (m.read_instruction = .ok i → i.parameter_mode p = .ok ParameterMode.Relative →
      m.exec_read p = .ok (v, m1) →
      m.memory.length ≤ i64ToUsize (m.rbo + m.read (m.ip + p + 1)) →
      m1.memory.length = i64ToUsize (m.rbo + m.read (m.ip + p + 1)) + 1 ∧ v = 0 ∧
        ∀ j, m.memory.length ≤ j → j < m1.memory.length → m1.read j = 0) ∧
    ((Machine.new [4, 10, 99]).memory.length = 3 ∧
      (Machine.new [4, 10, 99]).run 5 =
        .ok (some 0, ⟨2, 0, [4, 10, 99, 0, 0, 0, 0, 0, 0, 0, 0], []⟩)) := by
  refine ⟨?_, ?_, by decide, by decide⟩
  · intro hri hpm h hga
    unfold Machine.exec_read at h
    rw [hri] at h
    simp only [ok_bind] at h
    rw [hpm] at h
    simp only [ok_bind] at h
    have hh : m.read_mut (i64ToUsize (m.read (m.ip + p + 1))) = (v, m1) := by
      simpa using h
    obtain ⟨hl, hv, hz⟩ := read_mut_grow hga
    rw [hh] at hl hv hz
    exact ⟨hl, hv, by rw [hl]; exact hz⟩
  · intro hri hpm h hga
    unfold Machine.exec_read at h
    rw [hri] at h
    simp only [ok_bind] at h
    rw [hpm] at h
    simp only [ok_bind] at h
    have hh : m.read_mut (i64ToUsize (m.rbo + m.read (m.ip + p + 1))) = (v, m1) := by
      simpa using h
    obtain ⟨hl, hv, hz⟩ := read_mut_grow hga
    rw [hh] at hl hv hz
    exact ⟨hl, hv, by rw [hl]; exact hz⟩

/-- Witness for C10 at the Output instruction of program `4,10,99`. -/
theorem claim_C10_witness :
    ((⟨0, 0, [4, 10, 99, 0, 0, 0, 0, 0, 0, 0, 0], []⟩ : Machine).memory.length =
        10 + 1) ∧ (0 : Int) = 0 := by
  have h := (claim_C10 (Machine.new [4, 10, 99]) 0 ⟨4, Opcode.Output⟩ 0
    ⟨0, 0, [4, 10, 99, 0, 0, 0, 0, 0, 0, 0, 0], []⟩).1
    (by decide) (by decide) (by decide) (by decide)
  exact ⟨h.1, h.2.1⟩

set_option maxRecDepth 8000 in
/-- C8: running the quine program with no input and collecting all outputs
via repeated run calls until halt yields exactly the program's own sixteen
integers, and the machine has halted when collection stops. -/
theorem claim_C8 :
    (collectOutputs (Machine.new quineProgram) 100 20).map
      (fun p => (p.1, p.2.is_halted)) = .ok (quineProgram, .ok true) := by
  decide

/-! ### Claim C9: malformed-program diagnostics

The claim asserts that every malformed-program diagnostic identifies both
the offending opcode/mode value and the instruction pointer at the time of
failure.  The source's diagnostics carry the offending value for unknown
opcodes and unknown modes, but the illegal-write diagnostic is a fixed
message carrying no value, and no diagnostic carries the instruction
pointer: two failures at different instruction pointers produce the
identical diagnostic. -/

/-- C9 counterexample: the program `98` fails at instruction pointer 0 and
the program `1101,1,1,0,98` fails at instruction pointer 4 (after its Add
instruction ran), yet both runs produce the identical diagnostic, carrying
the opcode value 98 and nothing else; so the diagnostic does not identify
the instruction pointer.  The illegal-write diagnostic of `10002,0,0,0,99`
identifies neither a value nor the instruction pointer. -/
theorem claim_C9_counterexample :
    (Machine.new [98]).read_instruction = .error (ExecError.UnknownOpcode 98) ∧
    (Machine.new [98]).ip = 0 ∧
    (Machine.new [1101, 1, 1, 0, 98]).exec_next_instruction =
      .ok (NextAction.Continue, ⟨4, 0, [2, 1, 1, 0, 98], []⟩) ∧
    (⟨4, 0, [2, 1, 1, 0, 98], []⟩ : Machine).read_instruction =
      .error (ExecError.UnknownOpcode 98) ∧
    (Machine.new [98]).run 5 = .error (ExecError.UnknownOpcode 98) ∧
    (Machine.new [1101, 1, 1, 0, 98]).run 5 = .error (ExecError.UnknownOpcode 98) ∧
    (Machine.new [10002, 0, 0, 0, 99]).run 5 = .error ExecError.CannotWriteImmediate := by
  decide

/-- C9 (amended): whenever a malformed-program condition occurs the run
terminates immediately with a diagnostic; the unknown-opcode diagnostic
identifies the offending opcode value and the unknown-mode diagnostic the
offending mode digit, while the illegal-write diagnostic is a fixed message;
no diagnostic identifies the instruction pointer at the time of failure. -/
theorem claim_C9 (m : Machine) (e : ExecError) (f : Nat) (w : Int) (idx p : Nat)
    (i : Instruction) (v : Int) :
    (m.exec_next_instruction = .error e → m.run (f + 1) = .error e) ∧
    (Opcode.new w = .error e → e = ExecError.UnknownOpcode (Int.tmod w 100)) ∧
    (idx ≤ 2 → ParameterMode.new w idx = .error e →
      e = ExecError.UnknownParameterMode
        (Int.tmod (Int.tdiv (Int.tdiv w 100) ((10 : Int) ^ idx)) 10)) ∧
    (m.read_instruction = .ok i → i.parameter_mode p = .ok ParameterMode.Immediate →
      m.exec_write p v = .error ExecError.CannotWriteImmediate) := by
  refine ⟨?_, ?_, ?_, ?_⟩
  · intro h
    rw [run_succ, h]
  · intro h
    unfold Opcode.new at h
    dsimp only at h
    split at h <;> simp_all
  · intro hidx h
    unfold ParameterMode.new at h
    rw [if_pos hidx] at h
    dsimp only at h
    split at h <;> simp_all
  · intro hri hpm
    unfold Machine.exec_write
    rw [hri]
    simp only [ok_bind]
    rw [hpm]
    rfl

/-- Witness for C9 at the malformed programs `98`, `302` and `10002,0,0,0,99`. -/
theorem claim_C9_witness :
    (Machine.new [98]).run 1 = .error (ExecError.UnknownOpcode 98) ∧
      (ExecError.UnknownOpcode 98 = ExecError.UnknownOpcode (Int.tmod 98 100)) ∧
      (ExecError.UnknownParameterMode 3 = ExecError.UnknownParameterMode
        (Int.tmod (Int.tdiv (Int.tdiv 302 100) ((10 : Int) ^ 0)) 10)) ∧
      (Machine.new [10002, 0, 0, 0, 99]).exec_write 2 7 =
        .error ExecError.CannotWriteImmediate := by
  refine ⟨?_, ?_, ?_, ?_⟩
  · exact (claim_C9 (Machine.new [98]) (ExecError.UnknownOpcode 98) 0 98 0 0
      ⟨10002, Opcode.Mul⟩ 7).1 (by decide)
  · exact (claim_C9 (Machine.new [98]) (ExecError.UnknownOpcode 98) 0 98 0 0
      ⟨10002, Opcode.Mul⟩ 7).2.1 (by decide)
  · exact (claim_C9 (Machine.new [98]) (ExecError.UnknownParameterMode 3) 0 302 0 0
      ⟨10002, Opcode.Mul⟩ 7).2.2.1 (by decide) (by decide)
  · exact (claim_C9 (Machine.new [10002, 0, 0, 0, 99]) ExecError.OutOfFuel 0 98 0 2
      ⟨10002, Opcode.Mul⟩ 7).2.2.2 (by decide) (by decide)

/-! ### Claim C4: resumability

The key simulation tool: replacing the input queue of a machine does not
affect any part of execution except the Input instruction, and pushing
extra (newer) values onto the front of the queue does not disturb the
consumption of the (older) values already present, which `pop_back` takes
from the other end. -/

/-- Replace the input queue of a machine. -/
def setq (m : Machine) (x : List Int) : Machine := { m with input_queue := x }

@[simp]
theorem setq_ip (m : Machine) (x : List Int) : (setq m x).ip = m.ip := rfl

@[simp]
theorem setq_rbo (m : Machine) (x : List Int) : (setq m x).rbo = m.rbo := rfl

@[simp]
theorem setq_memory (m : Machine) (x : List Int) : (setq m x).memory = m.memory := rfl

@[simp]
theorem setq_queue (m : Machine) (x : List Int) : (setq m x).input_queue = x := rfl

@[simp]
theorem setq_read (m : Machine) (x : List Int) (a : Nat) :
    (setq m x).read a = m.read a := rfl

@[simp]
theorem setq_read_instruction (m : Machine) (x : List Int) :
    (setq m x).read_instruction = m.read_instruction := rfl

theorem setq_ensure (m : Machine) (x : List Int) (a : Nat) :
    (setq m x).ensure_memory a = setq (m.ensure_memory a) x := by
  by_cases h : m.memory.length ≤ a <;>
    simp [Machine.ensure_memory, setq, h]

theorem setq_write (m : Machine) (x : List Int) (a : Nat) (v : Int) :
    (setq m x).write a v = setq (m.write a v) x := by
  unfold Machine.write
  rw [setq_ensure]
  rfl

theorem setq_read_mut (m : Machine) (x : List Int) (a : Nat) :
    (setq m x).read_mut a = ((m.read_mut a).1, setq (m.read_mut a).2 x) := by
  unfold Machine.read_mut
  rw [setq_ensure]
  rfl

theorem setq_exec_read (m : Machine) (x : List Int) (p : Nat) :
    (setq m x).exec_read p = (m.exec_read p).map (fun r => (r.1, setq r.2 x)) := by
  unfold Machine.exec_read
  rw [setq_read_instruction]
  cases hI : m.read_instruction with
  | error e => simp
  | ok instr =>
    simp only [ok_bind]
    cases hm : instr.parameter_mode p with
    | error e => simp
    | ok mode =>
      simp only [ok_bind]
      cases mode <;> simp [setq_read_mut]

theorem setq_exec_write (m : Machine) (x : List Int) (p : Nat) (v : Int) :
    (setq m x).exec_write p v = (m.exec_write p v).map (fun m2 => setq m2 x) := by
  unfold Machine.exec_write
  rw [setq_read_instruction]
  cases hI : m.read_instruction with
  | error e => simp
  | ok instr =>
    simp only [ok_bind]
    cases hm : instr.parameter_mode p with
    | error e => simp
    | ok mode =>
      simp only [ok_bind]
      cases mode <;> simp [setq_write]

theorem setq_exec_binary_op (m : Machine) (x : List Int) (func : Int → Int → Int) :
    (setq m x).exec_binary_op func =
      (m.exec_binary_op func).map (fun r => (r.1, setq r.2 x)) := by
  unfold Machine.exec_binary_op
  rw [setq_exec_read]
  cases h1 : m.exec_read 0 with
  | error e => simp
  | ok p1 =>
    obtain ⟨v1, m1⟩ := p1
    simp only [map_ok, ok_bind]
    rw [setq_exec_read]
    cases h2 : m1.exec_read 1 with
    | error e => simp
    | ok p2 =>
      obtain ⟨v2, m2⟩ := p2
      simp only [map_ok, ok_bind]
      rw [setq_exec_write]
      cases h3 : m2.exec_write 2 (func v1 v2) with
      | error e => simp
      | ok m3 => simp [setq]

theorem setq_exec_jump_if_op (m : Machine) (x : List Int) (predicate : Int → Bool) :
    (setq m x).exec_jump_if_op predicate =
      (m.exec_jump_if_op predicate).map (fun r => (r.1, setq r.2 x)) := by
  unfold Machine.exec_jump_if_op
  rw [setq_exec_read]
  cases h1 : m.exec_read 0 with
  | error e => simp
  | ok p1 =>
    obtain ⟨v1, m1⟩ := p1
    simp only [map_ok, ok_bind]
    by_cases hp : predicate v1
    · rw [if_pos hp, if_pos hp]
      rw [setq_exec_read]
      cases h2 : m1.exec_read 1 with
      | error e => simp
      | ok p2 =>
        obtain ⟨v2, m2⟩ := p2
        simp [setq]
    · rw [if_neg hp, if_neg hp]
      simp [setq]

theorem setq_exec_output_op (m : Machine) (x : List Int) :
    (setq m x).exec_output_op =
      (m.exec_output_op).map (fun r => (r.1, setq r.2 x)) := by
  unfold Machine.exec_output_op
  rw [setq_exec_read]
  cases h1 : m.exec_read 0 with
  | error e => simp
  | ok p1 =>
    obtain ⟨v1, m1⟩ := p1
    simp [setq]

theorem setq_exec_adjust_rbo (m : Machine) (x : List Int) :
    (setq m x).exec_adjust_rbo =
      (m.exec_adjust_rbo).map (fun r => (r.1, setq r.2 x)) := by
  unfold Machine.exec_adjust_rbo
  rw [setq_exec_read]
  cases h1 : m.exec_read 0 with
  | error e => simp
  | ok p1 =>
    obtain ⟨v1, m1⟩ := p1
    simp [setq]

theorem dropLast_append_right {α : Type} (e q : List α) (h : q ≠ []) :
    (e ++ q).dropLast = e ++ q.dropLast := by
  induction e with
  | nil => rfl
  | cons y ys ih =>
    cases hxq : ys ++ q with
    | nil => exact absurd (List.append_eq_nil.mp hxq).2 h
    | cons a t =>
      simp only [List.cons_append, hxq, List.dropLast_cons₂]
      rw [← hxq, ih]

/-- Pushing extra, newer values onto the front of a nonempty input queue does
not disturb the execution of the Input instruction, which consumes from the
back. -/
theorem setq_exec_input_op (m : Machine) (e : List Int) (hne : m.input_queue ≠ []) :
    (setq m (e ++ m.input_queue)).exec_input_op =
      (m.exec_input_op).map (fun r => (r.1, setq r.2 (e ++ r.2.input_queue))) := by
  unfold Machine.exec_input_op
  rw [setq_queue, List.getLast?_append_of_ne_nil e hne]
  cases hq : m.input_queue.getLast? with
  | none => exact absurd (List.getLast?_eq_none_iff.mp hq) hne
  | some v =>
    have hd : (e ++ m.input_queue).dropLast = e ++ m.input_queue.dropLast :=
      dropLast_append_right e m.input_queue hne
    have hmach : ({ setq m (e ++ m.input_queue) with
        input_queue := (e ++ m.input_queue).dropLast } : Machine) =
        setq ({ m with input_queue := m.input_queue.dropLast }) (e ++ m.input_queue.dropLast) := by
      rw [setq, setq]
      simp [hd]
    rw [hmach]
    dsimp only
    rw [setq_exec_write]
    cases hw : ({ m with input_queue := m.input_queue.dropLast }).exec_write 0 v with
    | error e2 => simp
    | ok m2 =>
      simp only [map_ok, ok_bind, pure_eq_ok, map_error]
      obtain ⟨-, -, hq2, -⟩ := exec_write_spec hw
      simp only [setq]
      simp [hq2]

/-- One-step frame property: as long as an Input instruction never faces an
empty queue, prepending newer values to the queue commutes with a single
decode-and-execute step. -/
theorem step_frame (m : Machine) (e : List Int)
    (hcond : ∀ i, m.read_instruction = .ok i → i.opcode = Opcode.Input →
      m.input_queue ≠ []) :
    (setq m (e ++ m.input_queue)).exec_next_instruction =
      (m.exec_next_instruction).map (fun r => (r.1, setq r.2 (e ++ r.2.input_queue))) := by
  unfold Machine.exec_next_instruction
  rw [setq_read_instruction]
  cases hri : m.read_instruction with
  | error e2 => simp
  | ok instr =>
    simp only [ok_bind]
    cases hop : instr.opcode
    case Halt => rfl
    case Input => exact setq_exec_input_op m e (hcond instr hri hop)
    case Add =>
      dsimp only
      rw [setq_exec_binary_op]
      cases hb : m.exec_binary_op (fun a b => wrap64 (a + b)) with
      | error e2 => simp
      | ok r =>
        obtain ⟨a, m1⟩ := r
        obtain ⟨-, hq1, -⟩ := exec_binary_op_spec hb
        simp [hq1]
    case Mul =>
      dsimp only
      rw [setq_exec_binary_op]
      cases hb : m.exec_binary_op (fun a b => wrap64 (a * b)) with
      | error e2 => simp
      | ok r =>
        obtain ⟨a, m1⟩ := r
        obtain ⟨-, hq1, -⟩ := exec_binary_op_spec hb
        simp [hq1]
    case LessThan =>
      dsimp only
      rw [setq_exec_binary_op]
      cases hb : m.exec_binary_op (fun a b => if a < b then 1 else 0) with
      | error e2 => simp
      | ok r =>
        obtain ⟨a, m1⟩ := r
        obtain ⟨-, hq1, -⟩ := exec_binary_op_spec hb
        simp [hq1]
    case Equals =>
      dsimp only
      rw [setq_exec_binary_op]
      cases hb : m.exec_binary_op (fun a b => if a == b then 1 else 0) with
      | error e2 => simp
      | ok r =>
        obtain ⟨a, m1⟩ := r
        obtain ⟨-, hq1, -⟩ := exec_binary_op_spec hb
        simp [hq1]
    case JumpIfTrue =>
      dsimp only
      rw [setq_exec_jump_if_op]
      cases hb : m.exec_jump_if_op (fun v => v != 0) with
      | error e2 => simp
      | ok r =>
        obtain ⟨a, m1⟩ := r
        obtain ⟨-, hq1, -⟩ := exec_jump_if_op_spec hb
        simp [hq1]
    case JumpIfFalse =>
      dsimp only
      rw [setq_exec_jump_if_op]
      cases hb : m.exec_jump_if_op (fun v => v == 0) with
      | error e2 => simp
      | ok r =>
        obtain ⟨a, m1⟩ := r
        obtain ⟨-, hq1, -⟩ := exec_jump_if_op_spec hb
        simp [hq1]
    case Output =>
      dsimp only
      rw [setq_exec_output_op]
      cases hb : m.exec_output_op with
      | error e2 => simp
      | ok r =>
        obtain ⟨a, m1⟩ := r
        obtain ⟨v, m2, hread, -, hm⟩ := exec_output_op_spec hb
        obtain ⟨-, -, hq1, -⟩ := exec_read_spec hread
        rw [hm]
        simp [hq1]
    case AdjustRelativeBase =>
      dsimp only
      rw [setq_exec_adjust_rbo]
      cases hb : m.exec_adjust_rbo with
      | error e2 => simp
      | ok r =>
        obtain ⟨a, m1⟩ := r
        obtain ⟨-, hq1, -⟩ := exec_adjust_rbo_spec hb
        simp [hq1]

theorem input_starves_step {m : Machine} {i : Instruction}
    (hri : m.read_instruction = .ok i) (hop : i.opcode = Opcode.Input)
    (hq : m.input_queue = []) :
    m.exec_next_instruction = .ok (NextAction.Halt, m) := by
  unfold Machine.exec_next_instruction
  rw [hri]
  simp only [ok_bind]
  rw [hop]
  show m.exec_input_op = _
  unfold Machine.exec_input_op
  rw [hq]
  rfl

/-- Frame property for a whole run that ends in an output pause or a true
halt: prepending newer input values to the queue leaves the run unchanged
(up to the prepended values riding along in the final queue). -/
theorem run_frame_ok {m : Machine} {f : Nat} {r : Option Int} {m1 : Machine}
    (h : m.run f = .ok (r, m1))
    (hp : r ≠ none ∨ m1.is_halted = .ok true) (e : List Int) :
    (setq m (e ++ m.input_queue)).run f = .ok (r, setq m1 (e ++ m1.input_queue)) := by
  induction f generalizing m with
  | zero => simp [Machine.run] at h
  | succ f ih =>
    rw [run_succ] at h
    rw [run_succ]
    cases he : m.exec_next_instruction with
    | error e2 => rw [he] at h; simp at h
    | ok p =>
      rw [he] at h
      obtain ⟨a, m2⟩ := p
      have hcond : ∀ i, m.read_instruction = .ok i → i.opcode = Opcode.Input →
          m.input_queue ≠ [] := by
        intro i hri hop hq
        have hdisp := input_starves_step hri hop hq
        rw [he] at hdisp
        have hd2 : a = NextAction.Halt ∧ m2 = m := by simpa using hdisp
        obtain ⟨ha, hm2⟩ := hd2
        subst ha
        have hh : (none : Option Int) = r ∧ m2 = m1 := by simpa using h
        rcases hp with hr | hhalt
        · exact hr hh.1.symm
        · rw [← hh.2, hm2] at hhalt
          rw [Machine.is_halted, hri] at hhalt
          simp [Instruction.is_halt, hop] at hhalt
      have hsf := step_frame m e hcond
      rw [he] at hsf
      simp only [map_ok] at hsf
      rw [hsf]
      cases a with
      | Continue => exact ih h
      | Halt =>
        have hh : (none : Option Int) = r ∧ m2 = m1 := by simpa using h
        rw [← hh.1, ← hh.2]
      | Output v =>
        have hh : (some v : Option Int) = r ∧ m2 = m1 := by simpa using h
        rw [← hh.1, ← hh.2]

/-- Frame property for a run that ends in input starvation: with newer
values e prepended to the queue, the extended run instead passes through the
starved state (whose own queue has been fully consumed) carrying queue e,
and continues from there. -/
theorem run_frame_starve {m : Machine} {f : Nat} {m1 : Machine}
    (h : m.run f = .ok (none, m1)) (hawait : m1.is_awaiting_input = .ok true)
    (e : List Int) {F : Nat} {X : Option Int × Machine}
    (hX : (setq m (e ++ m.input_queue)).run F = .ok X) :
    (setq m1 e).run F = .ok X := by
  induction f generalizing m F with
  | zero => simp [Machine.run] at h
  | succ f ih =>
    rw [run_succ] at h
    cases he : m.exec_next_instruction with
    | error e2 => rw [he] at h; simp at h
    | ok p =>
      rw [he] at h
      obtain ⟨a, m2⟩ := p
      cases a with
      | Output v => simp at h
      | Halt =>
        have hh : (none : Option Int) = none ∧ m2 = m1 := by simpa using h
        obtain ⟨hminv, i, hri, hcases⟩ := exec_next_halt_inv he
        rcases hcases with hH | ⟨hI, hq⟩
        · exfalso
          rw [← hh.2, hminv] at hawait
          rw [Machine.is_awaiting_input, hri] at hawait
          simp [Instruction.is_input, hH] at hawait
        · have hm1 : m1 = m := by rw [← hh.2, hminv]
          have hq2 : e ++ m.input_queue = e := by rw [hq, List.append_nil]
          rw [hm1]
          rw [hq2] at hX
          exact hX
      | Continue =>
        have hcond : ∀ i, m.read_instruction = .ok i → i.opcode = Opcode.Input →
            m.input_queue ≠ [] := by
          intro i hri hop hq
          have hdisp := input_starves_step hri hop hq
          rw [he] at hdisp
          simp at hdisp
        have hsf := step_frame m e hcond
        rw [he] at hsf
        simp only [map_ok] at hsf
        cases F with
        | zero => simp [Machine.run] at hX
        | succ F =>
          rw [run_succ, hsf] at hX
          exact run_mono (ih h hX) (by omega)

theorem feedAll_eq (m : Machine) (vs : List Int) :
    feedAll m vs = setq m (vs.reverse ++ m.input_queue) := by
  induction vs generalizing m with
  | nil => rfl
  | cons v vs ih =>
    show feedAll (m.input v) vs = _
    rw [ih]
    show setq m (vs.reverse ++ (v :: m.input_queue)) = _
    congr 1
    simp [List.reverse_cons, List.append_assoc]

theorem collectOutputs_succ (m : Machine) (f n : Nat) :
    collectOutputs m f (n + 1) =
      match m.run f with
      | .error e => .error e
      | .ok (none, m1) => .ok ([], m1)
      | .ok (some v, m1) => (collectOutputs m1 f n).map (fun p => (v :: p.1, p.2)) := rfl

theorem driveSplit_succ (m : Machine) (vs : List Int) (f n : Nat) :
    driveSplit m vs f (n + 1) =
      match m.run f with
      | .error e => .error e
      | .ok (some v, m1) => (driveSplit m1 vs f n).map (fun p => (v :: p.1, p.2))
      | .ok (none, m1) =>
        match vs with
        | [] => .ok ([], m1)
        | v :: rest =>
          if m1.is_awaiting_input = Except.ok true then
            driveSplit (m1.input v) rest f n
          else .ok ([], m1) := rfl

/-- C4: for every machine and every input sequence, driving the machine by
supplying the inputs one at a time — running to each pause, and on an
input-starvation pause supplying exactly the next input value and running
again, i.e. a `run_with_input` call — produces exactly the same output
sequence as buffering all inputs up front (oldest first) and repeatedly
calling `run`, whenever both drives complete.  In particular this holds for
every program that only ever reads one input per pause; input values are
consumed oldest-first, one per Input instruction, in both drives. -/
theorem claim_C4 (m : Machine) (vs : List Int) (fA nA fB nB : Nat)
    (outA outB : List Int) (mA mB : Machine)
    (hA : collectOutputs (feedAll m vs) fA nA = .ok (outA, mA))
    (hB : driveSplit m vs fB nB = .ok (outB, mB)) :
    outA = outB := by
  induction nB generalizing m vs nA outA outB mA mB with
  | zero => simp [driveSplit] at hB
  | succ nB ih =>
    rw [feedAll_eq] at hA
    rw [driveSplit_succ] at hB
    cases hrB : m.run fB with
    | error e => rw [hrB] at hB; simp at hB
    | ok p =>
      rw [hrB] at hB
      obtain ⟨r, m1⟩ := p
      cases r with
      | some v =>
        dsimp only at hB
        cases hdB : driveSplit m1 vs fB nB with
        | error e => rw [hdB] at hB; simp at hB
        | ok qB =>
          rw [hdB] at hB
          have hhB : v :: qB.1 = outB ∧ qB.2 = mB := by
            obtain ⟨b1, b2⟩ := qB
            simpa using hB
          have hframe := run_frame_ok hrB (Or.inl (by simp)) vs.reverse
          cases nA with
          | zero => simp [collectOutputs] at hA
          | succ nA =>
            rw [collectOutputs_succ] at hA
            cases hrA : (setq m (vs.reverse ++ m.input_queue)).run fA with
            | error e => rw [hrA] at hA; simp at hA
            | ok pA =>
              rw [hrA] at hA
              have hpA := run_det hrA hframe
              subst hpA
              dsimp only at hA
              cases hcA : collectOutputs (setq m1 (vs.reverse ++ m1.input_queue)) fA nA with
              | error e => rw [hcA] at hA; simp at hA
              | ok qA =>
                rw [hcA] at hA
                have hhA : v :: qA.1 = outA ∧ qA.2 = mA := by
                  obtain ⟨a1, a2⟩ := qA
                  simpa using hA
                have heq := ih m1 vs nA qA.1 qB.1 qA.2 qB.2
                  (by rw [feedAll_eq]; exact hcA) hdB
                rw [← hhA.1, ← hhB.1, heq]
      | none =>
        dsimp only at hB
        cases vs with
        | nil =>
          have hhB : ([] : List Int) = outB ∧ m1 = mB := by simpa using hB
          have hme : setq m ((([] : List Int)).reverse ++ m.input_queue) = m := rfl
          rw [hme] at hA
          cases nA with
          | zero => simp [collectOutputs] at hA
          | succ nA =>
            rw [collectOutputs_succ] at hA
            cases hrA : m.run fA with
            | error e => rw [hrA] at hA; simp at hA
            | ok pA =>
              rw [hrA] at hA
              have hpA := run_det hrA hrB
              subst hpA
              dsimp only at hA
              have hhA : ([] : List Int) = outA ∧ m1 = mA := by simpa using hA
              rw [← hhA.1, ← hhB.1]
        | cons v rest =>
          dsimp only at hB
          by_cases haw : m1.is_awaiting_input = Except.ok true
          · rw [if_pos haw] at hB
            have hqe : m1.input_queue = [] := by
              obtain ⟨i, hri, hcases⟩ := run_none_cases hrB
              rcases hcases with hH | ⟨hI, hq⟩
              · exfalso
                rw [Machine.is_awaiting_input, hri] at haw
                simp [Instruction.is_input, hH] at haw
              · exact hq
            cases nA with
            | zero => simp [collectOutputs] at hA
            | succ nA =>
              rw [collectOutputs_succ] at hA
              cases hrA : (setq m ((v :: rest).reverse ++ m.input_queue)).run fA with
              | error e2 => rw [hrA] at hA; simp at hA
              | ok pA =>
                rw [hrA] at hA
                have hstep := run_frame_starve hrB haw (v :: rest).reverse hrA
                have hAx : collectOutputs (setq m1 ((v :: rest).reverse)) fA (nA + 1) =
                    .ok (outA, mA) := by
                  rw [collectOutputs_succ, hstep]
                  exact hA
                have hfeed : feedAll (m1.input v) rest =
                    setq m1 ((v :: rest).reverse) := by
                  rw [feedAll_eq]
                  show setq m1 (rest.reverse ++ (v :: m1.input_queue)) = _
                  rw [hqe, List.reverse_cons]
                exact ih (m1.input v) rest (nA + 1) outA outB mA mB
                  (by rw [hfeed]; exact hAx) hB
          · rw [if_neg haw] at hB
            have hhB : ([] : List Int) = outB ∧ m1 = mB := by simpa using hB
            have hhalted : m1.is_halted = .ok true := by
              obtain ⟨i, hri, hcases⟩ := run_none_cases hrB
              rcases hcases with hH | ⟨hI, hq⟩
              · rw [Machine.is_halted, hri]
                simp [Instruction.is_halt, hH]
              · exfalso
                apply haw
                rw [Machine.is_awaiting_input, hri]
                simp [Instruction.is_input, hI]
            have hframe := run_frame_ok hrB (Or.inr hhalted) (v :: rest).reverse
            cases nA with
            | zero => simp [collectOutputs] at hA
            | succ nA =>
              rw [collectOutputs_succ] at hA
              cases hrA : (setq m ((v :: rest).reverse ++ m.input_queue)).run fA with
              | error e2 => rw [hrA] at hA; simp at hA
              | ok pA =>
                rw [hrA] at hA
                have hpA := run_det hrA hframe
                subst hpA
                dsimp only at hA
                have hhA : ([] : List Int) = outA ∧
                    setq m1 ((v :: rest).reverse ++ m1.input_queue) = mA := by
                  simpa using hA
                rw [← hhA.1, ← hhB.1]

/-- Witness for C4 at the program `3,0,4,0,99` with input sequence [7]:
buffered up front, two run calls produce output [7]; supplied one value at a
time, three run calls (starve, resume-with-input, halt) produce output [7]. -/
theorem claim_C4_witness : ([7] : List Int) = [7] :=
  claim_C4 (Machine.new [3, 0, 4, 0, 99]) [7] 5 3 5 4 [7] [7]
    ⟨4, 0, [7, 0, 4, 0, 99], []⟩ ⟨4, 0, [7, 0, 4, 0, 99], []⟩
    (by decide) (by decide)

end Intcode
